import Mathlib

/-!
Verification of the hierarchical multicast routing addressing module
(`routing_defs.py`): routing levels and directions, routing-cost
computation, routing coordinates, replication masks and multicast
expansion.  The definitions below are shallow embeddings of the Python
source; the external collaborator types (`Coord`, `ReplicationId`, the
hardware parameters) are modelled from the specification since their
source is not part of this module.
-/

/-- Modelled from the spec: the external `Coord` type (`coordinate.Coord`
is not part of this module) — an absolute 2D mesh coordinate with
non-negative integer fields `x`, `y`. -/
structure Coord where
  x : Nat
  y : Nat
deriving DecidableEq, Repr

/-- Modelled from the spec: the external `ReplicationId` type
(`coordinate.ReplicationId`, imported as `RId`, is not part of this
module) — a pair of bitmask integers `(x, y)`. -/
structure RId where
  x : Nat
  y : Nat
deriving DecidableEq, Repr

/-- Modelled from the spec: `Coord` supports per-axis bitwise XOR whose
result is a `ReplicationId` (the source writes `base_coord ^ coord`). -/
def Coord.xorRId (a b : Coord) : RId :=
  RId.mk (a.x ^^^ b.x) (a.y ^^^ b.y)

/-- Modelled from the spec: replication masks combine via per-axis
bitwise OR (the source writes `rid |= ...`). -/
def RId.or (a b : RId) : RId :=
  RId.mk (a.x ||| b.x) (a.y ||| b.y)

namespace HwParams

/-- Modelled from the spec: the external hardware branching factor
`HwParams.N_SUB_ROUTING_NODE` (`hw_defs.py` is not part of this module),
the number of level-(L-1) children a level-L node aggregates,
canonically 4. -/
def N_SUB_ROUTING_NODE : Nat := 4

end HwParams

/-- `RoutingLevel`: levels L0 (leaf) through L5 of the routing tree. -/
inductive RoutingLevel where
  | L0
  | L1
  | L2
  | L3
  | L4
  | L5
deriving DecidableEq, Repr

/-- Numeric value of a routing level (the source's `IntEnum` value). -/
def RoutingLevel.toNat : RoutingLevel → Nat
  | .L0 => 0
  | .L1 => 1
  | .L2 => 2
  | .L3 => 3
  | .L4 => 4
  | .L5 => 5

/-- The source's `RoutingLevel(n)` conversion.  All call sites in the
source pass `n ∈ 1..5`; the final case is unreachable there (the
`IntEnum` would raise on it). -/
def RoutingLevel.fromNat : Nat → RoutingLevel
  | 0 => .L0
  | 1 => .L1
  | 2 => .L2
  | 3 => .L3
  | 4 => .L4
  | _ => .L5

instance : LT RoutingLevel :=
  ⟨fun a b => a.toNat < b.toNat⟩

instance (a b : RoutingLevel) : Decidable (a < b) :=
  inferInstanceAs (Decidable (a.toNat < b.toNat))

/-- `RoutingDirection`: the 4 children of a cluster, plus `ANY`. -/
inductive RoutingDirection where
  | X0Y0
  | X0Y1
  | X1Y0
  | X1Y1
  | ANY
deriving DecidableEq, Repr, Fintype

/-- The `value` of each enum member in the source (`ANY` is `(-1, -1)`). -/
def RoutingDirection.value : RoutingDirection → Int × Int
  | .X0Y0 => (0, 0)
  | .X0Y1 => (0, 1)
  | .X1Y0 => (1, 0)
  | .X1Y1 => (1, 1)
  | .ANY => (-1, -1)

/-- `RoutingDirection.to_index`: convert the direction to the index in
the children list, `(x << 1) + y`; raises (`none`) on `ANY`. -/
def RoutingDirection.to_index (d : RoutingDirection) : Option Int :=
  if d = RoutingDirection.ANY then
    none
  else
    some (d.value.1 * 2 + d.value.2)

/-- `RoutingCost`: the number of nodes required at each level. -/
structure RoutingCost where
  n_L0 : Nat
  n_L1 : Nat
  n_L2 : Nat
  n_L3 : Nat
  n_L4 : Nat
deriving DecidableEq, Repr

/-- Tuple indexing `self[i]` of the source's `NamedTuple`. -/
def RoutingCost.get (c : RoutingCost) : Nat → Nat
  | 0 => c.n_L0
  | 1 => c.n_L1
  | 2 => c.n_L2
  | 3 => c.n_L3
  | _ => c.n_L4

/-- `RoutingCost.get_routing_level`: the source's
`for i in reversed(range(5)): if self[i] > 1: return RoutingLevel(i+1)`,
falling through to `L1`, unrolled. -/
def RoutingCost.get_routing_level (c : RoutingCost) : RoutingLevel :=
  if 1 < c.n_L4 then RoutingLevel.fromNat (4 + 1)
  else if 1 < c.n_L3 then RoutingLevel.fromNat (3 + 1)
  else if 1 < c.n_L2 then RoutingLevel.fromNat (2 + 1)
  else if 1 < c.n_L1 then RoutingLevel.fromNat (1 + 1)
  else if 1 < c.n_L0 then RoutingLevel.fromNat (0 + 1)
  else RoutingLevel.L1

/-- `RoutingCoord`: router directions representing a cluster, listed
from the L4 selection down to the L0 leaf quadrant. -/
structure RoutingCoord where
  L4 : RoutingDirection
  L3 : RoutingDirection
  L2 : RoutingDirection
  L1 : RoutingDirection
  L0 : RoutingDirection
deriving DecidableEq, Repr

instance : Fintype RoutingCoord :=
  Fintype.ofEquiv
    (RoutingDirection × RoutingDirection × RoutingDirection ×
      RoutingDirection × RoutingDirection)
    { toFun := fun p => ⟨p.1, p.2.1, p.2.2.1, p.2.2.2.1, p.2.2.2.2⟩
      invFun := fun rc => ⟨rc.L4, rc.L3, rc.L2, rc.L1, rc.L0⟩
      left_inv := fun _ => rfl
      right_inv := fun _ => rfl }

/-- `RoutingCoord.level`: the source's
`for i in range(len(self)): if self[i] is ANY: return RoutingLevel(5-i)`,
falling through to `L0`, unrolled (`self[0]` is the L4 entry). -/
def RoutingCoord.level (rc : RoutingCoord) : RoutingLevel :=
  if rc.L4 = RoutingDirection.ANY then RoutingLevel.fromNat (5 - 0)
  else if rc.L3 = RoutingDirection.ANY then RoutingLevel.fromNat (5 - 1)
  else if rc.L2 = RoutingDirection.ANY then RoutingLevel.fromNat (5 - 2)
  else if rc.L1 = RoutingDirection.ANY then RoutingLevel.fromNat (5 - 3)
  else if rc.L0 = RoutingDirection.ANY then RoutingLevel.fromNat (5 - 4)
  else RoutingLevel.L0

/-- `RoutingCoord.coordinate`: raises (`none`) unless the level is L0;
otherwise assembles `x = Σ value[0] << level`, `y = Σ value[1] << level`.
At L0 every direction is concrete, so the `Int` sums are the
non-negative values the source passes to `Coord`; `toNat` is exact. -/
def RoutingCoord.coordinate (rc : RoutingCoord) : Option Coord :=
  if RoutingLevel.L0 < rc.level then
    none
  else
    let x : Int :=
      rc.L4.value.1 * 2 ^ 4 + rc.L3.value.1 * 2 ^ 3 + rc.L2.value.1 * 2 ^ 2 +
        rc.L1.value.1 * 2 ^ 1 + rc.L0.value.1
    let y : Int :=
      rc.L4.value.2 * 2 ^ 4 + rc.L3.value.2 * 2 ^ 3 + rc.L2.value.2 * 2 ^ 2 +
        rc.L1.value.2 * 2 ^ 1 + rc.L0.value.2
    some (Coord.mk x.toNat y.toNat)

/-- The source's `while n_L0_nodes < n_core: n_L0_nodes <<= 1` loop, with
explicit fuel.  `n_core` units of fuel always suffice: the accumulator
starts at 1 and doubles each step, so it reaches `n_core` within
`n_core` iterations. -/
def n_L0_loop : Nat → Nat → Nat → Nat
  | 0, _, acc => acc
  | fuel + 1, n_core, acc =>
      if acc < n_core then n_L0_loop fuel n_core (acc <<< 1) else acc

/-- `n_L0_required` (nested in `get_routing_consumption`): the nearest
power of two accommodating `n_core` L0-level clusters. -/
def n_L0_required (n_core : Nat) : Nat :=
  n_L0_loop n_core n_core 1

/-- `get_routing_consumption`: the consumption of clusters at different
levels for a given `n_core`. -/
def get_routing_consumption (n_core : Nat) : RoutingCost :=
  let n_sub_node := HwParams.N_SUB_ROUTING_NODE
  let n_L0 := n_L0_required n_core
  let n_L1 := if n_L0 < n_sub_node then 1 else n_L0 / n_sub_node
  let n_L2 := if n_L1 < n_sub_node then 1 else n_L1 / n_sub_node
  let n_L3 := if n_L2 < n_sub_node then 1 else n_L2 / n_sub_node
  let n_L4 := if n_L3 < n_sub_node then 1 else n_L3 / n_sub_node
  RoutingCost.mk n_L0 n_L1 n_L2 n_L3 n_L4

/-- `get_replication_id`: the replication ID of a sequence of
coordinates.  The source's `coords[0]` raises on an empty sequence
(`none`); otherwise `rid` accumulates `base_coord ^ coord` over
`coords[1:]` via `|=`. -/
def get_replication_id (coords : List Coord) : Option RId :=
  match coords with
  | [] => none
  | base_coord :: rest =>
      some (rest.foldl (fun rid coord => rid.or (base_coord.xorRId coord)) (RId.mk 0 0))

/-- One iteration of the source's per-axis bit loop in
`get_multicast_cores`: if bit `lx` of the mask `m` is set, extend the
candidate set with every member XORed with `1 << lx`. -/
def expand_axis_bit (m lx : Nat) (s : Finset Nat) : Finset Nat :=
  if (m >>> lx) &&& 1 = 1 then s ∪ s.image (fun v => v ^^^ (1 <<< lx)) else s

/-- `get_multicast_cores`: expand a base coordinate and a replication
mask into the multicast coordinate set.  The single `for lx in range(5)`
loop of the source updates the independent `corex` and `corey` sets;
the result is their product. -/
def get_multicast_cores (base_coord : Coord) (rid : RId) : Finset Coord :=
  let cxy :=
    (List.range 5).foldl
      (fun (p : Finset Nat × Finset Nat) lx =>
        (expand_axis_bit rid.x lx p.1, expand_axis_bit rid.y lx p.2))
      ({base_coord.x}, {base_coord.y})
  (cxy.1 ×ˢ cxy.2).image (fun q => Coord.mk q.1 q.2)

/-- The 5-tuple of a `RoutingCoord` as a list, from the L4 entry down to
the L0 entry (the source's tuple order). -/
def RoutingCoord.entries (rc : RoutingCoord) : List RoutingDirection :=
  [rc.L4, rc.L3, rc.L2, rc.L1, rc.L0]

/-- The direction at depth `k` of a `RoutingCoord`: `dirAt 4` is the L4
entry and `dirAt 0` the L0 entry (the spec's `direction[level]`). -/
def RoutingCoord.dirAt (rc : RoutingCoord) : Nat → RoutingDirection
  | 0 => rc.L0
  | 1 => rc.L1
  | 2 => rc.L2
  | 3 => rc.L3
  | _ => rc.L4

/-- The x- or y-candidate set as the spec words it, after processing bit
positions `0 .. j-1`: start from `{b}`; for each bit position `k` set in
the mask `m`, double the set by XORing every member with `1 << k`. -/
def axis_candidates_build (b m : Nat) : Nat → Finset Nat
  | 0 => {b}
  | k + 1 =>
      let s := axis_candidates_build b m k
      if m.testBit k then s ∪ s.image (fun v => v ^^^ (1 <<< k)) else s

/-- The final per-axis candidate set of the spec (bit positions 0..4). -/
def axis_candidates_spec (b m : Nat) : Finset Nat :=
  axis_candidates_build b m 5

/-- One axis of the source's candidate-set loop, processing the bit
positions `0 .. j-1` of the mask `m` starting from `{b}`. -/
def axis_fold (m b j : Nat) : Finset Nat :=
  (List.range j).foldl (fun s lx => expand_axis_bit m lx s) {b}

/-- C5: for every `RoutingCoord` (5-tuple ordered L4..L0), `level` is
`RoutingLevel (5 - index)` where `index` is the position of the first
`ANY` entry scanning from the L4 entry (position 0) to the L0 entry,
and `L0` when no entry is `ANY`. -/
theorem claim_C5_level_first_any (rc : RoutingCoord) :
    rc.level =
      match rc.entries.findIdx? (fun d => d = RoutingDirection.ANY) with
      | some i => RoutingLevel.fromNat (5 - i)
      | none => RoutingLevel.L0 := by
  by_cases h4 : rc.L4 = RoutingDirection.ANY <;>
    by_cases h3 : rc.L3 = RoutingDirection.ANY <;>
    by_cases h2 : rc.L2 = RoutingDirection.ANY <;>
    by_cases h1 : rc.L1 = RoutingDirection.ANY <;>
    by_cases h0 : rc.L0 = RoutingDirection.ANY <;>
    simp [RoutingCoord.level, RoutingCoord.entries, List.findIdx?_cons,
      h4, h3, h2, h1, h0]

/-- C6: `RoutingCost.get_routing_level` returns `RoutingLevel (i + 1)`
for the largest index `i` (first hit scanning indices 4 down to 0)
whose count exceeds 1, and `L1` when no count exceeds 1; in particular
`RoutingCost(1,1,1,1,1)` gives `L1` and `RoutingCost(8,2,1,1,1)` gives
`L2`. -/
theorem claim_C6_minimal_containing_level :
    (∀ c : RoutingCost,
      c.get_routing_level =
        match [4, 3, 2, 1, 0].find? (fun i => 1 < c.get i) with
        | some i => RoutingLevel.fromNat (i + 1)
        | none => RoutingLevel.L1) ∧
    (RoutingCost.mk 1 1 1 1 1).get_routing_level = RoutingLevel.L1 ∧
    (RoutingCost.mk 8 2 1 1 1).get_routing_level = RoutingLevel.L2 := by
  refine ⟨fun c => ?_, by decide, by decide⟩
  simp only [RoutingCost.get_routing_level, RoutingCost.get, List.find?]
  by_cases h4 : 1 < c.n_L4 <;> by_cases h3 : 1 < c.n_L3 <;>
    by_cases h2 : 1 < c.n_L2 <;> by_cases h1 : 1 < c.n_L1 <;>
    by_cases h0 : 1 < c.n_L0 <;>
    simp [h4, h3, h2, h1, h0]

/-- C8: for every `n_core` and level L in 1..4, the level-L count of
`get_routing_consumption n_core` is 1 when the previous level's count is
below the branching factor `N_SUB_ROUTING_NODE`, and the integer
quotient of the previous count by the branching factor otherwise. -/
theorem claim_C8_level_counts (n_core : Nat) :
    ((get_routing_consumption n_core).n_L1 =
      if (get_routing_consumption n_core).n_L0 < HwParams.N_SUB_ROUTING_NODE then 1
      else (get_routing_consumption n_core).n_L0 / HwParams.N_SUB_ROUTING_NODE) ∧
    ((get_routing_consumption n_core).n_L2 =
      if (get_routing_consumption n_core).n_L1 < HwParams.N_SUB_ROUTING_NODE then 1
      else (get_routing_consumption n_core).n_L1 / HwParams.N_SUB_ROUTING_NODE) ∧
    ((get_routing_consumption n_core).n_L3 =
      if (get_routing_consumption n_core).n_L2 < HwParams.N_SUB_ROUTING_NODE then 1
      else (get_routing_consumption n_core).n_L2 / HwParams.N_SUB_ROUTING_NODE) ∧
    ((get_routing_consumption n_core).n_L4 =
      if (get_routing_consumption n_core).n_L3 < HwParams.N_SUB_ROUTING_NODE then 1
      else (get_routing_consumption n_core).n_L3 / HwParams.N_SUB_ROUTING_NODE) :=
  ⟨rfl, rfl, rfl, rfl⟩

/-- C9: `to_index` fails (returns `none`) exactly on `ANY`, and maps the
four concrete quadrant directions to the child-slot indices
`(x << 1) + y`, which lie in 0..3. -/
theorem claim_C9_to_index :
    (∀ d : RoutingDirection, d.to_index = none ↔ d = RoutingDirection.ANY) ∧
    RoutingDirection.to_index RoutingDirection.X0Y0 = some 0 ∧
    RoutingDirection.to_index RoutingDirection.X0Y1 = some 1 ∧
    RoutingDirection.to_index RoutingDirection.X1Y0 = some 2 ∧
    RoutingDirection.to_index RoutingDirection.X1Y1 = some 3 ∧
    (∀ d : RoutingDirection, d = RoutingDirection.ANY ∨
      d.to_index = some (d.value.1 * 2 + d.value.2)) := by
  refine ⟨?_, by decide, by decide, by decide, by decide, ?_⟩ <;> decide

/-- The spec formula `x = Σ direction[level].x_bit << level` for a
fully specified routing coord (`x_bit` read off the direction value). -/
def coord_x_bits (rc : RoutingCoord) : Nat :=
  ((rc.dirAt 4).value.1.toNat <<< 4) + ((rc.dirAt 3).value.1.toNat <<< 3) +
    ((rc.dirAt 2).value.1.toNat <<< 2) + ((rc.dirAt 1).value.1.toNat <<< 1) +
    (rc.dirAt 0).value.1.toNat

/-- The spec formula `y = Σ direction[level].y_bit << level` for a
fully specified routing coord. -/
def coord_y_bits (rc : RoutingCoord) : Nat :=
  ((rc.dirAt 4).value.2.toNat <<< 4) + ((rc.dirAt 3).value.2.toNat <<< 3) +
    ((rc.dirAt 2).value.2.toNat <<< 2) + ((rc.dirAt 1).value.2.toNat <<< 1) +
    (rc.dirAt 0).value.2.toNat

set_option maxHeartbeats 3200000 in
/-- C4: `RoutingCoord.coordinate` fails (returns `none`) exactly when
the level is above L0 (some entry is `ANY`); for a fully specified
coord it returns `x = Σ direction[k].x_bit << k` (and likewise `y`),
so bit `k` of `x` (resp. `y`) is the x (resp. y) quadrant bit of the
level-`k` direction for every `k` in 0..4. -/
theorem claim_C4_coordinate (rc : RoutingCoord) :
    (rc.coordinate = none ↔ rc.level ≠ RoutingLevel.L0) ∧
    (rc.level = RoutingLevel.L0 →
      rc.coordinate = some (Coord.mk (coord_x_bits rc) (coord_y_bits rc)) ∧
      ∀ k : Fin 5,
        ((coord_x_bits rc).testBit k.val = true ↔ (rc.dirAt k.val).value.1 = 1) ∧
        ((coord_y_bits rc).testBit k.val = true ↔ (rc.dirAt k.val).value.2 = 1)) := by
  rcases rc with ⟨d4, d3, d2, d1, d0⟩
  cases d4 <;> cases d3 <;> cases d2 <;> cases d1 <;> cases d0 <;> decide

/-- Witness for C4 at a concrete fully specified coord. -/
theorem claim_C4_coordinate_witness :
    (RoutingCoord.mk RoutingDirection.X1Y0 RoutingDirection.X0Y1 RoutingDirection.X0Y0
        RoutingDirection.X1Y1 RoutingDirection.X0Y0).coordinate = some (Coord.mk 18 10) := by
  have h := (claim_C4_coordinate (RoutingCoord.mk RoutingDirection.X1Y0 RoutingDirection.X0Y1
    RoutingDirection.X0Y0 RoutingDirection.X1Y1 RoutingDirection.X0Y0)).2 rfl
  simpa using h.1

/-- The doubling loop keeps its result at or above `n` whenever enough
fuel remains to reach `n` from the current power of two. -/
theorem n_L0_loop_ge (fuel : Nat) :
    ∀ j n : Nat, n ≤ 2 ^ (j + fuel) → n ≤ n_L0_loop fuel n (2 ^ j) := by
  induction fuel with
  | zero =>
      intro j n h
      simpa [n_L0_loop] using h
  | succ fuel ih =>
      intro j n h
      rw [n_L0_loop]
      split
      · have hs : (2 ^ j) <<< 1 = 2 ^ (j + 1) := by
          rw [Nat.shiftLeft_eq]; ring
        rw [hs]
        have harr : j + (fuel + 1) = j + 1 + fuel := by omega
        rw [harr] at h
        exact ih (j + 1) n h
      · omega

/-- The doubling loop always returns a power of two when started on
one. -/
theorem n_L0_loop_pow (fuel : Nat) :
    ∀ j n : Nat, ∃ k, n_L0_loop fuel n (2 ^ j) = 2 ^ k := by
  induction fuel with
  | zero =>
      intro j n
      exact ⟨j, rfl⟩
  | succ fuel ih =>
      intro j n
      rw [n_L0_loop]
      split
      · have hs : (2 ^ j) <<< 1 = 2 ^ (j + 1) := by
          rw [Nat.shiftLeft_eq]; ring
        rw [hs]
        exact ih (j + 1) n
      · exact ⟨j, rfl⟩

/-- The doubling loop never overshoots a power of two that already
accommodates `n`. -/
theorem n_L0_loop_min (fuel : Nat) :
    ∀ j n m : Nat, j ≤ m → n ≤ 2 ^ m → n_L0_loop fuel n (2 ^ j) ≤ 2 ^ m := by
  induction fuel with
  | zero =>
      intro j n m hjm _
      exact Nat.pow_le_pow_right (by omega) hjm
  | succ fuel ih =>
      intro j n m hjm hnm
      rw [n_L0_loop]
      split
      · rename_i hlt
        have hjltm : j < m := by
          by_contra hc
          have : m = j := by omega
          subst this
          omega
        have hs : (2 ^ j) <<< 1 = 2 ^ (j + 1) := by
          rw [Nat.shiftLeft_eq]; ring
        rw [hs]
        exact ih (j + 1) n m (by omega) hnm
      · exact Nat.pow_le_pow_right (by omega) hjm

/-- C7: the `n_L0` field of `get_routing_consumption n_core` is the
smallest power of two that is at least `n_core`; in particular for
`n_core` in 1, 5, 8, 20, 32, 33 it is 1, 8, 8, 32, 32, 64. -/
theorem claim_C7_n_L0_power_of_two :
    (∀ n_core : Nat,
      (∃ k, (get_routing_consumption n_core).n_L0 = 2 ^ k) ∧
      n_core ≤ (get_routing_consumption n_core).n_L0 ∧
      (∀ m, n_core ≤ 2 ^ m → (get_routing_consumption n_core).n_L0 ≤ 2 ^ m)) ∧
    (get_routing_consumption 1).n_L0 = 1 ∧
    (get_routing_consumption 5).n_L0 = 8 ∧
    (get_routing_consumption 8).n_L0 = 8 ∧
    (get_routing_consumption 20).n_L0 = 32 ∧
    (get_routing_consumption 32).n_L0 = 32 ∧
    (get_routing_consumption 33).n_L0 = 64 := by
  refine ⟨fun n_core => ?_, by decide, by decide, by decide, by decide, by decide, by decide⟩
  have hdef : (get_routing_consumption n_core).n_L0 = n_L0_loop n_core n_core (2 ^ 0) := by
    simp [get_routing_consumption, n_L0_required]
  rw [hdef]
  refine ⟨n_L0_loop_pow n_core 0 n_core, ?_, fun m hm => ?_⟩
  · exact n_L0_loop_ge n_core 0 n_core (by simpa using (Nat.lt_two_pow n_core).le)
  · exact n_L0_loop_min n_core 0 n_core m (Nat.zero_le m) hm

/-- Witness for C7: at `n_core = 5` the result is at least 5 and at
most `2 ^ 3 = 8`. -/
theorem claim_C7_witness :
    5 ≤ (get_routing_consumption 5).n_L0 ∧ (get_routing_consumption 5).n_L0 ≤ 2 ^ 3 :=
  ⟨(claim_C7_n_L0_power_of_two.1 5).2.1,
    (claim_C7_n_L0_power_of_two.1 5).2.2 3 (by decide)⟩

/-- The source's loop guard `(m >> lx) & 1` tests bit `lx` of `m`. -/
theorem mask_bit_cond (m lx : Nat) : ((m >>> lx) &&& 1 = 1) ↔ m.testBit lx = true := by
  simp [Nat.testBit_to_div_mod, Nat.and_one_is_mod, Nat.shiftRight_eq_div_pow]

/-- `expand_axis_bit` with its guard rephrased through `testBit`. -/
theorem expand_axis_bit_eq (m lx : Nat) (s : Finset Nat) :
    expand_axis_bit m lx s =
      if m.testBit lx then s ∪ s.image (fun v => v ^^^ (1 <<< lx)) else s := by
  rw [expand_axis_bit]
  by_cases h : m.testBit lx
  · rw [if_pos ((mask_bit_cond m lx).mpr h), if_pos h]
  · rw [if_neg (fun hc => h ((mask_bit_cond m lx).mp hc)), if_neg h]

/-- Membership in one expansion step. -/
theorem mem_expand_axis_bit (m lx v : Nat) (s : Finset Nat) :
    v ∈ expand_axis_bit m lx s ↔
      v ∈ s ∨ (m.testBit lx = true ∧ ∃ u ∈ s, v = u ^^^ 2 ^ lx) := by
  have h2 : (1 : Nat) <<< lx = 2 ^ lx := by rw [Nat.shiftLeft_eq, one_mul]
  rw [expand_axis_bit_eq, h2]
  by_cases h : m.testBit lx
  · simp [h, Finset.mem_union, Finset.mem_image]
    constructor
    · rintro (hv | ⟨u, hu, rfl⟩)
      · exact Or.inl hv
      · exact Or.inr ⟨u, hu, rfl⟩
    · rintro (hv | ⟨u, hu, rfl⟩)
      · exact Or.inl hv
      · exact Or.inr ⟨u, hu, rfl⟩
  · simp [h]

/-- `d` is a submask of the low `j` bits of `m`: every set bit of `d`
is a set bit of `m` at a position below `j`. -/
def IsSubmaskLow (d m j : Nat) : Prop :=
  ∀ k, d.testBit k = true → m.testBit k = true ∧ k < j

/-- After one more bit of expansion the candidates are exactly the
submask-translates for one more bit position. -/
theorem axis_fold_succ (m b j : Nat) :
    axis_fold m b (j + 1) = expand_axis_bit m j (axis_fold m b j) := by
  rw [axis_fold, axis_fold, List.range_succ, List.foldl_append]
  rfl

/-- Membership in the per-axis candidate set: `v` is reachable from `b`
exactly when `v XOR b` is a submask of the low `j` bits of `m`. -/
theorem mem_axis_fold (m b : Nat) :
    ∀ j v, v ∈ axis_fold m b j ↔ IsSubmaskLow (v ^^^ b) m j := by
  intro j
  induction j with
  | zero =>
      intro v
      constructor
      · intro hv
        have hv' : v = b := by simpa [axis_fold] using hv
        subst hv'
        intro k hk
        simp [Nat.xor_self] at hk
      · intro hsub
        have hz : v ^^^ b = 0 := by
          apply Nat.eq_of_testBit_eq
          intro k
          simp only [Nat.zero_testBit]
          by_contra hc
          have : (v ^^^ b).testBit k = true := by
            cases hvb : (v ^^^ b).testBit k
            · simp [hvb] at hc
            · rfl
          exact absurd (hsub k this).2 (Nat.not_lt_zero k)
        have hvb : v = b := by
          have := congrArg (fun t => t ^^^ b) hz
          simpa [Nat.xor_cancel_right, Nat.zero_xor] using this
        simp [axis_fold, hvb]
  | succ j ih =>
      intro v
      rw [axis_fold_succ, mem_expand_axis_bit]
      constructor
      · rintro (hv | ⟨hmj, u, hu, rfl⟩)
        · intro k hk
          obtain ⟨hm, hkj⟩ := (ih v).mp hv k hk
          exact ⟨hm, by omega⟩
        · intro k hk
          have hud := (ih u).mp hu
          rw [Nat.xor_comm u (2 ^ j), Nat.xor_assoc] at hk
          rw [Nat.testBit_xor] at hk
          by_cases hkj : k = j
          · subst hkj
            exact ⟨hmj, by omega⟩
          · rw [Nat.testBit_two_pow_of_ne (fun h => hkj h.symm)] at hk
            simp only [Bool.false_xor] at hk
            obtain ⟨hm, hkj'⟩ := hud k hk
            exact ⟨hm, by omega⟩
      · intro hsub
        by_cases hdj : (v ^^^ b).testBit j
        · right
          refine ⟨(hsub j hdj).1, v ^^^ 2 ^ j, ?_, ?_⟩
          · rw [ih]
            intro k hk
            rw [Nat.xor_comm v (2 ^ j), Nat.xor_assoc, Nat.testBit_xor] at hk
            by_cases hkj : k = j
            · subst hkj
              rw [Nat.testBit_two_pow_self, hdj] at hk
              simp at hk
            · rw [Nat.testBit_two_pow_of_ne (fun h => hkj h.symm)] at hk
              simp only [Bool.false_xor] at hk
              obtain ⟨hm, hk5⟩ := hsub k hk
              exact ⟨hm, by omega⟩
          · rw [Nat.xor_assoc, Nat.xor_self, Nat.xor_zero]
        · left
          rw [ih]
          intro k hk
          obtain ⟨hm, hkj⟩ := hsub k hk
          have hkne : k ≠ j := fun h => hdj (h ▸ hk)
          exact ⟨hm, by omega⟩

/-- The paired loop of `get_multicast_cores` is the product of the two
independent per-axis folds. -/
theorem get_multicast_cores_eq_axis (base_coord : Coord) (rid : RId) :
    get_multicast_cores base_coord rid =
      ((axis_fold rid.x base_coord.x 5) ×ˢ (axis_fold rid.y base_coord.y 5)).image
        (fun q : Nat × Nat => Coord.mk q.1 q.2) := rfl

/-- Membership in the multicast set, by submasks of the low 5 bits. -/
theorem mem_get_multicast_cores (base_coord : Coord) (rid : RId) (c : Coord) :
    c ∈ get_multicast_cores base_coord rid ↔
      IsSubmaskLow (c.x ^^^ base_coord.x) rid.x 5 ∧
        IsSubmaskLow (c.y ^^^ base_coord.y) rid.y 5 := by
  rw [get_multicast_cores_eq_axis]
  simp only [Finset.mem_image, Finset.mem_product, Prod.exists]
  constructor
  · rintro ⟨a, b, ⟨ha, hb⟩, rfl⟩
    exact ⟨(mem_axis_fold _ _ _ _).mp ha, (mem_axis_fold _ _ _ _).mp hb⟩
  · rintro ⟨hx, hy⟩
    exact ⟨c.x, c.y, ⟨(mem_axis_fold _ _ _ _).mpr hx, (mem_axis_fold _ _ _ _).mpr hy⟩, rfl⟩

/-- The source's per-axis loop computes exactly the spec's doubling
candidate sets. -/
theorem axis_fold_eq_spec (m b : Nat) :
    ∀ j, axis_fold m b j = axis_candidates_build b m j := by
  intro j
  induction j with
  | zero => rfl
  | succ j ih =>
      rw [axis_fold_succ, ih, expand_axis_bit_eq]
      rfl

/-- C2: `get_multicast_cores` returns exactly the cartesian product of
the spec's x- and y-candidate sets (doubling on each set mask bit in
positions 0..4); in particular base (0,0) with only x bit 0 set yields
exactly `{(0,0),(1,0)}`, and with bit 0 set on both axes exactly
`{(0,0),(0,1),(1,0),(1,1)}`. -/
theorem claim_C2_cartesian_product :
    (∀ (base_coord : Coord) (rid : RId),
      get_multicast_cores base_coord rid =
        ((axis_candidates_spec base_coord.x rid.x) ×ˢ (axis_candidates_spec base_coord.y rid.y)).image
          (fun q : Nat × Nat => Coord.mk q.1 q.2)) ∧
    get_multicast_cores (Coord.mk 0 0) (RId.mk 1 0) =
      ({Coord.mk 0 0, Coord.mk 1 0} : Finset Coord) ∧
    get_multicast_cores (Coord.mk 0 0) (RId.mk 1 1) =
      ({Coord.mk 0 0, Coord.mk 0 1, Coord.mk 1 0, Coord.mk 1 1} : Finset Coord) := by
  refine ⟨fun base_coord rid => ?_, by decide, by decide⟩
  rw [get_multicast_cores_eq_axis, axis_fold_eq_spec, axis_fold_eq_spec]
  rfl

/-- C10: mask bits at positions 5 and above are ignored by
`get_multicast_cores` — only the low 5 bits of each axis mask matter. -/
theorem claim_C10_high_mask_bits_ignored (base_coord : Coord) (rid : RId) :
    get_multicast_cores base_coord rid =
      get_multicast_cores base_coord (RId.mk (rid.x &&& 31) (rid.y &&& 31)) := by
  have h31 : ∀ d m : Nat, IsSubmaskLow d (m &&& 31) 5 ↔ IsSubmaskLow d m 5 := by
    intro d m
    have h5 : (31 : Nat) = 2 ^ 5 - 1 := by norm_num
    constructor <;> intro h k hk <;> obtain ⟨hm, hk5⟩ := h k hk <;> refine ⟨?_, hk5⟩
    · rw [Nat.testBit_and] at hm
      exact (Bool.and_eq_true _ _).mp hm |>.1
    · rw [Nat.testBit_and, hm, h5, Nat.testBit_two_pow_sub_one]
      simp [hk5]
  apply Finset.ext
  intro c
  rw [mem_get_multicast_cores, mem_get_multicast_cores]
  constructor <;> rintro ⟨hx, hy⟩
  · exact ⟨(h31 _ _).mpr hx, (h31 _ _).mpr hy⟩
  · exact ⟨(h31 _ _).mp hx, (h31 _ _).mp hy⟩

/-- The x component of the accumulating mask fold. -/
theorem grid_fold_x (rest : List Coord) (base_coord : Coord) :
    ∀ r : RId,
      (rest.foldl (fun rid coord => rid.or (base_coord.xorRId coord)) r).x =
        rest.foldl (fun a coord => a ||| (base_coord.x ^^^ coord.x)) r.x := by
  induction rest with
  | nil => intro r; rfl
  | cons hd tl ih =>
      intro r
      rw [List.foldl_cons, List.foldl_cons, ih]
      rfl

/-- The y component of the accumulating mask fold. -/
theorem grid_fold_y (rest : List Coord) (base_coord : Coord) :
    ∀ r : RId,
      (rest.foldl (fun rid coord => rid.or (base_coord.xorRId coord)) r).y =
        rest.foldl (fun a coord => a ||| (base_coord.y ^^^ coord.y)) r.y := by
  induction rest with
  | nil => intro r; rfl
  | cons hd tl ih =>
      intro r
      rw [List.foldl_cons, List.foldl_cons, ih]
      rfl

/-- A bit of an OR-fold is set exactly when it is set in the initial
accumulator or in some contributed value. -/
theorem testBit_or_foldl (f : Coord → Nat) (k : Nat) :
    ∀ (l : List Coord) (init : Nat),
      (l.foldl (fun a c => a ||| f c) init).testBit k = true ↔
        init.testBit k = true ∨ ∃ c ∈ l, (f c).testBit k = true := by
  intro l
  induction l with
  | nil => intro init; simp
  | cons hd tl ih =>
      intro init
      rw [List.foldl_cons, ih]
      simp only [Nat.testBit_or, Bool.or_eq_true, List.mem_cons]
      constructor
      · rintro ((h | h) | ⟨c, hc, h⟩)
        · exact Or.inl h
        · exact Or.inr ⟨hd, Or.inl rfl, h⟩
        · exact Or.inr ⟨c, Or.inr hc, h⟩
      · rintro (h | ⟨c, (rfl | hc), h⟩)
        · exact Or.inl (Or.inl h)
        · exact Or.inl (Or.inr h)
        · exact Or.inr ⟨c, hc, h⟩

/-- C3: `get_replication_id` fails (returns `none`) exactly on the
empty sequence; on `base :: rest` it returns per axis the bitwise OR
over `rest` of the XOR with the base, so a one-element sequence gives
the zero mask and `[(0,0),(1,1)]` gives bit 0 set on both axes. -/
theorem claim_C3_replication_id :
    (∀ coords : List Coord, get_replication_id coords = none ↔ coords = []) ∧
    (∀ (base_coord : Coord) (rest : List Coord),
      get_replication_id (base_coord :: rest) =
        some (RId.mk
          ((rest.map fun coord => base_coord.x ^^^ coord.x).foldl (fun a b => a ||| b) 0)
          ((rest.map fun coord => base_coord.y ^^^ coord.y).foldl (fun a b => a ||| b) 0))) ∧
    (∀ c : Coord, get_replication_id [c] = some (RId.mk 0 0)) ∧
    get_replication_id [Coord.mk 0 0, Coord.mk 1 1] = some (RId.mk 1 1) := by
  refine ⟨?_, ?_, fun c => rfl, by decide⟩
  · intro coords
    cases coords <;> simp [get_replication_id]
  · intro base_coord rest
    have hx : (rest.foldl (fun rid coord => rid.or (base_coord.xorRId coord)) (RId.mk 0 0)).x =
        rest.foldl (fun a coord => a ||| (base_coord.x ^^^ coord.x)) 0 := by
      simpa using grid_fold_x rest base_coord (RId.mk 0 0)
    have hy : (rest.foldl (fun rid coord => rid.or (base_coord.xorRId coord)) (RId.mk 0 0)).y =
        rest.foldl (fun a coord => a ||| (base_coord.y ^^^ coord.y)) 0 := by
      simpa using grid_fold_y rest base_coord (RId.mk 0 0)
    rw [List.foldl_map, List.foldl_map]
    rw [get_replication_id, ← hx, ← hy]

/-- C1: for a non-empty coordinate sequence with first element
`base_coord` — coordinates lying in the 32×32 mesh the spec fixes —
expanding the derived replication mask from the base yields a superset
of the sequence's elements; and when the sequence is exactly an
axis-aligned power-of-two block containing the base (i.e. the expansion
of some mask from the base), the result equals that set. -/
theorem claim_C1_expand_derive (base_coord : Coord) (rest : List Coord) (rid : RId)
    (hr : get_replication_id (base_coord :: rest) = some rid)
    (hb : ∀ c ∈ base_coord :: rest, c.x < 32 ∧ c.y < 32) :
    (∀ c ∈ base_coord :: rest, c ∈ get_multicast_cores base_coord rid) ∧
    (∀ mx my : Nat,
      (base_coord :: rest).toFinset = get_multicast_cores base_coord (RId.mk mx my) →
      get_multicast_cores base_coord rid = (base_coord :: rest).toFinset) := by
  have h32 : (32 : Nat) = 2 ^ 5 := by norm_num
  have hfold : (rest.foldl (fun rid coord => rid.or (base_coord.xorRId coord)) (RId.mk 0 0)) = rid := by
    have h0 := hr
    rw [get_replication_id] at h0
    exact Option.some.inj h0
  have hrx : rid.x = rest.foldl (fun a coord => a ||| (base_coord.x ^^^ coord.x)) 0 := by
    rw [← hfold]
    simpa using grid_fold_x rest base_coord (RId.mk 0 0)
  have hry : rid.y = rest.foldl (fun a coord => a ||| (base_coord.y ^^^ coord.y)) 0 := by
    rw [← hfold]
    simpa using grid_fold_y rest base_coord (RId.mk 0 0)
  have hsup : ∀ c ∈ base_coord :: rest, c ∈ get_multicast_cores base_coord rid := by
    intro c hc
    rw [mem_get_multicast_cores]
    rcases List.mem_cons.mp hc with rfl | hcr
    · constructor <;> intro k hk <;> simp [Nat.xor_self] at hk
    · constructor
      · intro k hk
        have hlt : c.x ^^^ base_coord.x < 2 ^ 5 := by
          rw [← h32]
          exact Nat.xor_lt_two_pow (h32 ▸ (hb c hc).1) (h32 ▸ (hb base_coord (List.mem_cons_self _ _)).1)
        have hk5 : k < 5 := by
          by_contra hc5
          have hf : (c.x ^^^ base_coord.x).testBit k = false :=
            Nat.testBit_lt_two_pow (lt_of_lt_of_le hlt (Nat.pow_le_pow_right (by omega) (by omega)))
          rw [hf] at hk
          exact Bool.noConfusion hk
        refine ⟨?_, hk5⟩
        rw [hrx, testBit_or_foldl]
        exact Or.inr ⟨c, hcr, by rwa [Nat.xor_comm base_coord.x c.x]⟩
      · intro k hk
        have hlt : c.y ^^^ base_coord.y < 2 ^ 5 := by
          rw [← h32]
          exact Nat.xor_lt_two_pow (h32 ▸ (hb c hc).2) (h32 ▸ (hb base_coord (List.mem_cons_self _ _)).2)
        have hk5 : k < 5 := by
          by_contra hc5
          have hf : (c.y ^^^ base_coord.y).testBit k = false :=
            Nat.testBit_lt_two_pow (lt_of_lt_of_le hlt (Nat.pow_le_pow_right (by omega) (by omega)))
          rw [hf] at hk
          exact Bool.noConfusion hk
        refine ⟨?_, hk5⟩
        rw [hry, testBit_or_foldl]
        exact Or.inr ⟨c, hcr, by rwa [Nat.xor_comm base_coord.y c.y]⟩
  refine ⟨hsup, fun mx my hS => ?_⟩
  apply Finset.ext
  intro c
  constructor
  · intro hcrid
    rw [hS]
    rw [mem_get_multicast_cores] at hcrid ⊢
    obtain ⟨hx, hy⟩ := hcrid
    constructor
    · intro k hk
      obtain ⟨hmk, hk5⟩ := hx k hk
      refine ⟨?_, hk5⟩
      rw [hrx, testBit_or_foldl] at hmk
      rcases hmk with h0 | ⟨c', hc', hbit⟩
      · rw [Nat.zero_testBit] at h0
        exact Bool.noConfusion h0
      · have hc'mem : c' ∈ get_multicast_cores base_coord (RId.mk mx my) := by
          rw [← hS]
          simp [List.mem_cons, hc']
        rw [mem_get_multicast_cores] at hc'mem
        exact (hc'mem.1 k (by rwa [Nat.xor_comm c'.x base_coord.x])).1
    · intro k hk
      obtain ⟨hmk, hk5⟩ := hy k hk
      refine ⟨?_, hk5⟩
      rw [hry, testBit_or_foldl] at hmk
      rcases hmk with h0 | ⟨c', hc', hbit⟩
      · rw [Nat.zero_testBit] at h0
        exact Bool.noConfusion h0
      · have hc'mem : c' ∈ get_multicast_cores base_coord (RId.mk mx my) := by
          rw [← hS]
          simp [List.mem_cons, hc']
        rw [mem_get_multicast_cores] at hc'mem
        exact (hc'mem.2 k (by rwa [Nat.xor_comm c'.y base_coord.y])).1
  · intro hctf
    have hcl : c ∈ base_coord :: rest := by simpa using hctf
    exact hsup c hcl

/-- Witness for C1 on the block `{(0,0),(0,1),(1,0),(1,1)}`. -/
theorem claim_C1_witness :
    Coord.mk 1 1 ∈ get_multicast_cores (Coord.mk 0 0) (RId.mk 1 1) ∧
    get_multicast_cores (Coord.mk 0 0) (RId.mk 1 1) =
      ([Coord.mk 0 0, Coord.mk 0 1, Coord.mk 1 0, Coord.mk 1 1] : List Coord).toFinset := by
  have h := claim_C1_expand_derive (Coord.mk 0 0) [Coord.mk 0 1, Coord.mk 1 0, Coord.mk 1 1]
    (RId.mk 1 1) (by decide) (by decide)
  exact ⟨h.1 (Coord.mk 1 1) (by decide), h.2 1 1 (by decide)⟩
